import Mathlib

/-!
Shallow embedding of the PyLog process/connection monitor
(src/main.py and src/scr/main.py, class ProcessMonitor).

Dictionaries are association lists with python-dict semantics:
lookup finds the first matching key, assignment overwrites in place
for a present key and appends for a new one, pop removes the key.
OS enumeration results are passed in as inputs; a failing enumeration
call is the value none.  The per-pid detail fetch of psutil.Process
is a function from pid to a FetchResult.
-/

namespace PyLog

/-- Severity of a diagnostic line produced via the logging module. -/
inductive Level where
  | debug
  | info
  | error
deriving DecidableEq

/-- One diagnostic line (logging.debug / logging.error calls). -/
structure Diag where
  level : Level
  msg : String
deriving DecidableEq

/-- Result of the per-pid detail fetch, psutil.Process(pid) plus name()
and create_time(): success with a name and a formatted creation time,
psutil.NoSuchProcess, or any other exception with its message. -/
inductive FetchResult where
  | ok (name : String) (created : String)
  | noSuchProcess
  | err (msg : String)
deriving DecidableEq

/-- Whether a fetch succeeded. -/
def FetchResult.isOk : FetchResult → Bool
  | .ok _ _ => true
  | _ => false

/-- Association list standing for a python dict. -/
abbrev Dict (α β : Type) := List (α × β)

/-- Python d.get(k): value at the first occurrence of the key, if any. -/
def dget [DecidableEq α] {β : Type} (k : α) : Dict α β → Option β
  | [] => none
  | p :: rest => if p.1 = k then some p.2 else dget k rest

/-- Python list(d.keys()). -/
def dkeys {α β : Type} (d : Dict α β) : List α :=
  d.map Prod.fst

/-- Python d.pop(k, None): remove the key if present. -/
def derase [DecidableEq α] {β : Type} (d : Dict α β) (k : α) : Dict α β :=
  d.filter (fun p => decide (p.1 ≠ k))

/-- Python d[k] = v: overwrite in place when the key is present,
append when it is new. -/
def dset [DecidableEq α] {β : Type} (d : Dict α β) (k : α) (v : β) : Dict α β :=
  if (dget k d).isSome then d.map (fun p => if p.1 = k then (k, v) else p)
  else d ++ [(k, v)]

/-- Lifecycle events emitted by the monitor (logging.info plus print of
the four message shapes). -/
structure ConnInfo where
  status : Option String
  pid : Option String
  laddr : Option String
  raddr : Option String
deriving DecidableEq

/-- A connection info dict with no entries, python {}. -/
def emptyConnInfo : ConnInfo := ⟨none, none, none, none⟩

/-- One lifecycle event. -/
inductive Event where
  | procStarted (pid : Nat) (name : String) (created : String)
  | procEnded (pid : Nat) (name : Option String)
  | connStarted (info : ConnInfo)
  | connEnded (info : ConnInfo)
deriving DecidableEq

/-- The pid to name cache self.pid_info. -/
abbrev PidInfo := Dict Nat String

/-- State, emitted events and emitted diagnostics of one poll step. -/
structure PollOut (σ : Type) where
  state : σ
  events : List Event
  diags : List Diag

/-- Embedding of ProcessMonitor._log_start: fetch detail for the pid;
on success emit a started event and store the name; on NoSuchProcess do
nothing; on any other exception log one error diagnostic. -/
def logStart (fetch : Nat → FetchResult) (acc : PollOut PidInfo) (pid : Nat) :
    PollOut PidInfo :=
  match fetch pid with
  | .ok name created =>
      ⟨dset acc.state pid name,
       acc.events ++ [.procStarted pid name created],
       acc.diags⟩
  | .noSuchProcess => acc
  | .err e =>
      ⟨acc.state, acc.events,
       acc.diags ++ [⟨.error, "Error logging start for PID " ++ toString pid ++ ": " ++ e⟩]⟩

/-- Embedding of ProcessMonitor._log_end: emit an ended event carrying
the cached name and pop the pid from the cache. -/
def logEnd (acc : PollOut PidInfo) (pid : Nat) : PollOut PidInfo :=
  ⟨derase acc.state pid,
   acc.events ++ [.procEnded pid (dget pid acc.state)],
   acc.diags⟩

/-- Current pid set of a poll: set(psutil.pids()) on success, empty on
an enumeration failure. -/
def currentOf (pidsRes : Option (List Nat)) : List Nat :=
  (pidsRes.getD []).dedup

/-- Embedding of the process half of ProcessMonitor._poll_once:
enumerate (degrading to empty with one error diagnostic on failure),
diff against the cached pid set, run _log_start over created pids and
_log_end over ended pids. -/
def pollPids (pi : PidInfo) (pidsRes : Option (List Nat))
    (fetch : Nat → FetchResult) : PollOut PidInfo :=
  let current := currentOf pidsRes
  let diags0 : List Diag :=
    match pidsRes with
    | some _ => []
    | none => [⟨.error, "Failed to list PIDs"⟩]
  let previous := (dkeys pi).dedup
  let created := current.filter (fun p => decide (p ∉ previous))
  let ended := previous.filter (fun p => decide (p ∉ current))
  let s1 := created.foldl (logStart fetch) ⟨pi, [], diags0⟩
  ended.foldl logEnd s1

/-- A psutil connection entry as consumed by the watcher: the six
attributes read via getattr, each possibly absent.  Addresses are
(ip, port) pairs. -/
structure Conn where
  family : Option Nat
  ctype : Option Nat
  laddr : Option (String × Nat)
  raddr : Option (String × Nat)
  status : Option String
  pid : Option Nat
deriving DecidableEq

/-- Embedding of ProcessMonitor._addr_str: None for an absent address,
otherwise ip:port. -/
def addrStr : Option (String × Nat) → Option String
  | none => none
  | some a => some (a.1 ++ ":" ++ toString a.2)

/-- The six-field connection identity produced by _conn_key. -/
structure ConnKey where
  family : Option Nat
  ctype : Option Nat
  laddr : Option String
  raddr : Option String
  status : Option String
  pid : Option Nat
deriving DecidableEq

/-- Embedding of ProcessMonitor._conn_key. -/
def connKey (c : Conn) : ConnKey :=
  ⟨c.family, c.ctype, addrStr c.laddr, addrStr c.raddr, c.status, c.pid⟩

/-- Python str applied to an optional pid, as in str(getattr(c, pid, None)). -/
def pyStr : Option Nat → String
  | none => "None"
  | some n => toString n

/-- The metadata dict stored per connection key. -/
def mkConnInfo (c : Conn) : ConnInfo :=
  ⟨c.status, some (pyStr c.pid), addrStr c.laddr, addrStr c.raddr⟩

/-- The key to metadata cache self.conn_info. -/
abbrev ConnDict := Dict ConnKey ConnInfo

/-- Accumulator of the enumeration loop inside _poll_connections:
the set current_keys being built and the mutated conn_info dict. -/
structure ScanAcc where
  keys : List ConnKey
  ci : ConnDict

/-- One iteration of the enumeration loop inside _poll_connections:
add the key to current_keys; if the key is not yet in conn_info, store
its metadata. -/
def scanStep (acc : ScanAcc) (c : Conn) : ScanAcc :=
  let k := connKey c
  ⟨if k ∈ acc.keys then acc.keys else acc.keys ++ [k],
   if (dget k acc.ci).isSome then acc.ci else acc.ci ++ [(k, mkConnInfo c)]⟩

/-- Embedding of ProcessMonitor._log_conn_start: emit a started event
carrying the metadata found in conn_info (an empty dict by default). -/
def logConnStart (acc : PollOut ConnDict) (k : ConnKey) : PollOut ConnDict :=
  ⟨acc.state,
   acc.events ++ [.connStarted ((dget k acc.state).getD emptyConnInfo)],
   acc.diags⟩

/-- Embedding of ProcessMonitor._log_conn_end: emit an ended event
carrying the cached metadata and pop the key. -/
def logConnEnd (acc : PollOut ConnDict) (k : ConnKey) : PollOut ConnDict :=
  ⟨derase acc.state k,
   acc.events ++ [.connEnded ((dget k acc.state).getD emptyConnInfo)],
   acc.diags⟩

/-- The connection identities of an enumeration result. -/
def connKeysOf (connsRes : Option (List Conn)) : List ConnKey :=
  (connsRes.getD []).map connKey

/-- Embedding of ProcessMonitor._poll_connections: enumerate (degrading
to an empty list with one debug diagnostic on failure), walk the
entries building current_keys while inserting unseen keys into
conn_info, then diff current_keys against the keys of the already
mutated conn_info and run _log_conn_start over created keys and
_log_conn_end over ended keys. -/
def pollConnections (ci : ConnDict) (connsRes : Option (List Conn)) :
    PollOut ConnDict :=
  let conns := connsRes.getD []
  let diags0 : List Diag :=
    match connsRes with
    | some _ => []
    | none => [⟨.debug, "Failed to list network connections"⟩]
  let scan := conns.foldl scanStep ⟨[], ci⟩
  let currentKeys := scan.keys
  let previousKeys := (dkeys scan.ci).dedup
  let created := currentKeys.filter (fun k => decide (k ∉ previousKeys))
  let ended := previousKeys.filter (fun k => decide (k ∉ currentKeys))
  let s1 := created.foldl logConnStart ⟨scan.ci, [], diags0⟩
  ended.foldl logConnEnd s1

/-- Whole-monitor state: both caches. -/
structure Monitor where
  pidInfo : PidInfo
  connInfo : ConnDict

/-- Embedding of _poll_once with the outcome of the network step made
explicit: the process half runs first, then the connection step either
returns normally or raises; a raise is swallowed (except: pass) leaving
whatever conn_info the interrupted step had produced. -/
def pollOnceWith (st : Monitor) (pidsRes : Option (List Nat))
    (fetch : Nat → FetchResult)
    (connOutcome : Except ConnDict (PollOut ConnDict)) : PollOut Monitor :=
  let p := pollPids st.pidInfo pidsRes fetch
  match connOutcome with
  | .ok c => ⟨⟨p.state, c.state⟩, p.events ++ c.events, p.diags ++ c.diags⟩
  | .error d => ⟨⟨p.state, d⟩, p.events, p.diags⟩

/-- Embedding of ProcessMonitor._poll_once on the normal path: the
process half followed by _poll_connections (monitor_network is True). -/
def pollOnce (st : Monitor) (pidsRes : Option (List Nat))
    (fetch : Nat → FetchResult) (connsRes : Option (List Conn)) : PollOut Monitor :=
  pollOnceWith st pidsRes fetch (.ok (pollConnections st.connInfo connsRes))

/-- Inner loop of the pid seeding in ProcessMonitor.__init__: store each
name, skip a pid that raises NoSuchProcess, and on any other exception
the outer handler resets pid_info to empty. -/
def seedPidsGo (fetch : Nat → FetchResult) : List Nat → PidInfo → PidInfo
  | [], acc => acc
  | p :: rest, acc =>
    match fetch p with
    | .ok name _ => seedPidsGo fetch rest (dset acc p name)
    | .noSuchProcess => seedPidsGo fetch rest acc
    | .err _ => []

/-- Pid seeding in ProcessMonitor.__init__: an enumeration failure
leaves the cache empty; no event is emitted. -/
def seedPids (pidsRes : Option (List Nat)) (fetch : Nat → FetchResult) :
    PidInfo × List Event :=
  match pidsRes with
  | none => ([], [])
  | some ps => (seedPidsGo fetch ps [], [])

/-- Embedding of ProcessMonitor._seed_connections: an enumeration
failure degrades to an empty list; every entry is stored; no event is
emitted. -/
def seedConnections (connsRes : Option (List Conn)) : ConnDict × List Event :=
  ((connsRes.getD []).foldl (fun ci c => dset ci (connKey c) (mkConnInfo c)) [], [])

/-- Embedding of ProcessMonitor.__init__: seed both caches from one
enumeration each, emitting no event. -/
def monitorInit (pidsRes : Option (List Nat)) (fetch : Nat → FetchResult)
    (connsRes : Option (List Conn)) : Monitor × List Event :=
  (⟨(seedPids pidsRes fetch).1, (seedConnections connsRes).1⟩,
   (seedPids pidsRes fetch).2 ++ (seedConnections connsRes).2)

/-- Whether an event is a connection started event. -/
def Event.isConnStarted : Event → Bool
  | .connStarted _ => true
  | _ => false

/-- Whether an event is a connection ended event. -/
def Event.isConnEnded : Event → Bool
  | .connEnded _ => true
  | _ => false

/-- Whether an event concerns the given pid. -/
def mentionsPid (x : Nat) : Event → Bool
  | .procStarted p _ _ => p == x
  | .procEnded p _ => p == x
  | _ => false

/-- Concrete fixture: an established TCP connection as psutil would list it. -/
def cEst : Conn :=
  ⟨some 2, some 1, some ("127.0.0.1", 80), some ("10.0.0.1", 5000),
   some "ESTABLISHED", some 42⟩

/-- The same socket after its status moved to CLOSE_WAIT; its six-field
identity differs from that of cEst. -/
def cCw : Conn := { cEst with status := some "CLOSE_WAIT" }

/-- Watcher state seeded (silently) with the established connection. -/
def ciSeeded : ConnDict := (seedConnections (some [cEst])).1

section DictLemmas

theorem dget_eq_none_iff {α β : Type} [DecidableEq α] {d : Dict α β} {k : α} :
    dget k d = none ↔ k ∉ dkeys d := by
  induction d with
  | nil => simp [dget, dkeys]
  | cons p rest ih =>
    by_cases hp : p.1 = k
    · simp [dget, hp, dkeys]
    · rw [dget, if_neg hp, ih]
      simp only [dkeys, List.map_cons, List.mem_cons]
      constructor
      · intro h
        rintro (hc | hc)
        · exact hp hc.symm
        · exact h hc
      · exact fun h hc => h (Or.inr hc)

theorem dget_isSome_iff_mem {α β : Type} [DecidableEq α] {d : Dict α β} {k : α} :
    (dget k d).isSome = true ↔ k ∈ dkeys d := by
  rw [Option.isSome_iff_ne_none, not_iff_comm, ← dget_eq_none_iff]

theorem mem_dkeys_append {α β : Type} {d1 d2 : Dict α β} {k : α} :
    k ∈ dkeys (d1 ++ d2) ↔ k ∈ dkeys d1 ∨ k ∈ dkeys d2 := by
  simp [dkeys]

theorem dget_append_of_isSome {α β : Type} [DecidableEq α] {d1 d2 : Dict α β} {k : α}
    (h : (dget k d1).isSome = true) : dget k (d1 ++ d2) = dget k d1 := by
  induction d1 with
  | nil => simp [dget] at h
  | cons p rest ih =>
    by_cases hp : p.1 = k
    · simp [dget, hp]
    · rw [dget, if_neg hp] at h
      rw [List.cons_append, dget, if_neg hp, dget, if_neg hp]
      exact ih h

theorem dget_append_of_none {α β : Type} [DecidableEq α] {d1 d2 : Dict α β} {k : α}
    (h : dget k d1 = none) : dget k (d1 ++ d2) = dget k d2 := by
  induction d1 with
  | nil => simp [dget]
  | cons p rest ih =>
    by_cases hp : p.1 = k
    · rw [dget, if_pos hp] at h
      exact absurd h (by simp)
    · rw [dget, if_neg hp] at h
      rw [List.cons_append, dget, if_neg hp]
      exact ih h

theorem dget_append_single_ne {α β : Type} [DecidableEq α] {d : Dict α β} {k k2 : α}
    {v : β} (h : k2 ≠ k) : dget k (d ++ [(k2, v)]) = dget k d := by
  rcases ho : dget k d with _ | v0
  · rw [dget_append_of_none ho]
    simp [dget, h]
  · rw [dget_append_of_isSome (by rw [ho]; rfl), ho]

theorem dget_mapReplace_ne {α β : Type} [DecidableEq α] {d : Dict α β} {k k2 : α}
    {v : β} (h : k2 ≠ k) :
    dget k (d.map (fun p => if p.1 = k2 then (k2, v) else p)) = dget k d := by
  induction d with
  | nil => rfl
  | cons p rest ih =>
    by_cases hpk2 : p.1 = k2
    · have hpk : ¬p.1 = k := fun hc => h (by rw [← hpk2, hc])
      rw [List.map_cons, if_pos hpk2, dget, dget, if_neg hpk]
      simp only [if_neg h]
      exact ih
    · rw [List.map_cons, if_neg hpk2, dget, dget]
      by_cases hpk : p.1 = k
      · rw [if_pos hpk, if_pos hpk]
      · rw [if_neg hpk, if_neg hpk]
        exact ih

theorem dkeys_mapReplace {α β : Type} [DecidableEq α] {d : Dict α β} {k2 : α} {v : β} :
    dkeys (d.map (fun p => if p.1 = k2 then (k2, v) else p)) = dkeys d := by
  unfold dkeys
  rw [List.map_map]
  have hf : (Prod.fst ∘ fun p : α × β => if p.1 = k2 then (k2, v) else p) = Prod.fst := by
    funext p
    by_cases hp : p.1 = k2
    · simp [hp]
    · simp [hp]
  rw [hf]

theorem dget_dset_ne {α β : Type} [DecidableEq α] {d : Dict α β} {k k2 : α} {v : β}
    (h : k2 ≠ k) : dget k (dset d k2 v) = dget k d := by
  unfold dset
  by_cases hs : (dget k2 d).isSome = true
  · rw [if_pos hs]
    exact dget_mapReplace_ne h
  · rw [if_neg hs]
    exact dget_append_single_ne h

theorem mem_dkeys_dset {α β : Type} [DecidableEq α] {d : Dict α β} {k k2 : α} {v : β} :
    k ∈ dkeys (dset d k2 v) ↔ k ∈ dkeys d ∨ k = k2 := by
  unfold dset
  by_cases hs : (dget k2 d).isSome = true
  · rw [if_pos hs, dkeys_mapReplace]
    have hk2 : k2 ∈ dkeys d := dget_isSome_iff_mem.mp hs
    constructor
    · exact Or.inl
    · rintro (hm | rfl)
      · exact hm
      · exact hk2
  · rw [if_neg hs, mem_dkeys_append]
    simp [dkeys]

theorem dget_derase_ne {α β : Type} [DecidableEq α] {d : Dict α β} {k k2 : α}
    (h : k ≠ k2) : dget k (derase d k2) = dget k d := by
  induction d with
  | nil => rfl
  | cons p rest ih =>
    by_cases hpk2 : p.1 = k2
    · have hpk : ¬p.1 = k := fun hc => h (by rw [← hc, hpk2])
      have hfilter : derase (p :: rest) k2 = derase rest k2 := by
        simp [derase, List.filter_cons, hpk2]
      rw [hfilter, ih, dget, if_neg hpk]
    · have hfilter : derase (p :: rest) k2 = p :: derase rest k2 := by
        simp [derase, List.filter_cons, hpk2]
      rw [hfilter]
      by_cases hpk : p.1 = k
      · rw [dget, if_pos hpk, dget, if_pos hpk]
      · rw [dget, if_neg hpk, dget, if_neg hpk]
        exact ih

theorem mem_dkeys_derase {α β : Type} [DecidableEq α] {d : Dict α β} {k k2 : α} :
    k ∈ dkeys (derase d k2) ↔ k ∈ dkeys d ∧ k ≠ k2 := by
  unfold derase dkeys
  constructor
  · intro h
    rcases List.mem_map.mp h with ⟨p, hp, rfl⟩
    rcases List.mem_filter.mp hp with ⟨hp1, hp2⟩
    exact ⟨List.mem_map.mpr ⟨p, hp1, rfl⟩, by simpa using hp2⟩
  · rintro ⟨h1, h2⟩
    rcases List.mem_map.mp h1 with ⟨p, hp, rfl⟩
    exact List.mem_map.mpr ⟨p, List.mem_filter.mpr ⟨hp, by simpa using h2⟩, rfl⟩

end DictLemmas

section ProcessFoldLemmas

theorem startFold_mem_state (fetch : Nat → FetchResult) (l : List Nat)
    (acc : PollOut PidInfo) (k : Nat) :
    k ∈ dkeys ((l.foldl (logStart fetch) acc).state) ↔
      k ∈ dkeys acc.state ∨ (k ∈ l ∧ (fetch k).isOk = true) := by
  induction l generalizing acc with
  | nil => simp
  | cons p rest ih =>
    rw [List.foldl_cons, ih]
    rcases hf : fetch p with ⟨n, c⟩ | _ | m
    · by_cases hk : k = p
      · subst hk
        simp [logStart, hf, mem_dkeys_dset, FetchResult.isOk]
      · simp [logStart, hf, mem_dkeys_dset, hk]
    · by_cases hk : k = p
      · subst hk
        simp [logStart, hf, FetchResult.isOk]
      · simp [logStart, hf, hk]
    · by_cases hk : k = p
      · subst hk
        simp [logStart, hf, FetchResult.isOk]
      · simp [logStart, hf, hk]

theorem startFold_dget_not_mem (fetch : Nat → FetchResult) (l : List Nat)
    (acc : PollOut PidInfo) (x : Nat) (hx : x ∉ l) :
    dget x ((l.foldl (logStart fetch) acc).state) = dget x acc.state := by
  induction l generalizing acc with
  | nil => rfl
  | cons p rest ih =>
    have hxr : x ∉ rest := fun hc => hx (List.mem_cons_of_mem _ hc)
    have hxp : p ≠ x := fun hc => hx (hc ▸ List.mem_cons_self _ _)
    rw [List.foldl_cons, ih _ hxr]
    rcases hf : fetch p with ⟨n, c⟩ | _ | m
    · simp [logStart, hf, dget_dset_ne hxp]
    · simp [logStart, hf]
    · simp [logStart, hf]

theorem startFold_events_mem (fetch : Nat → FetchResult) (l : List Nat)
    (acc : PollOut PidInfo) (e : Event)
    (he : e ∈ (l.foldl (logStart fetch) acc).events) :
    e ∈ acc.events ∨ ∃ p n c, p ∈ l ∧ fetch p = .ok n c ∧ e = .procStarted p n c := by
  induction l generalizing acc with
  | nil => exact Or.inl he
  | cons p rest ih =>
    rw [List.foldl_cons] at he
    rcases ih _ he with h | ⟨q, n, c, hq, hfq, rfl⟩
    · rcases hf : fetch p with ⟨n, c⟩ | _ | m
      · simp [logStart, hf] at h
        rcases h with h | rfl
        · exact Or.inl h
        · exact Or.inr ⟨p, n, c, List.mem_cons_self _ _, hf, rfl⟩
      · simp [logStart, hf] at h
        exact Or.inl h
      · simp [logStart, hf] at h
        exact Or.inl h
    · exact Or.inr ⟨q, n, c, List.mem_cons_of_mem _ hq, hfq, rfl⟩

theorem startFold_events_mono (fetch : Nat → FetchResult) (l : List Nat)
    (acc : PollOut PidInfo) (e : Event) (he : e ∈ acc.events) :
    e ∈ (l.foldl (logStart fetch) acc).events := by
  induction l generalizing acc with
  | nil => exact he
  | cons p rest ih =>
    rw [List.foldl_cons]
    apply ih
    rcases hf : fetch p with ⟨n, c⟩ | _ | m
    · simp [logStart, hf]
      exact Or.inl he
    · simp [logStart, hf]
      exact he
    · simp [logStart, hf]
      exact he

theorem startFold_started_mem (fetch : Nat → FetchResult) (l : List Nat)
    (acc : PollOut PidInfo) (p : Nat) (n c : String)
    (hp : p ∈ l) (hf : fetch p = .ok n c) :
    Event.procStarted p n c ∈ (l.foldl (logStart fetch) acc).events := by
  induction l generalizing acc with
  | nil => cases hp
  | cons q rest ih =>
    rw [List.foldl_cons]
    rcases List.mem_cons.mp hp with rfl | hp2
    · apply startFold_events_mono
      simp [logStart, hf]
    · exact ih _ hp2

theorem startFold_events_of_none (fetch : Nat → FetchResult) (l : List Nat)
    (acc : PollOut PidInfo) (h : ∀ p ∈ l, (fetch p).isOk = false) :
    (l.foldl (logStart fetch) acc).events = acc.events := by
  induction l generalizing acc with
  | nil => rfl
  | cons p rest ih =>
    rw [List.foldl_cons]
    have hp := h p (List.mem_cons_self _ _)
    rcases hf : fetch p with ⟨n, c⟩ | _ | m
    · rw [hf] at hp
      simp [FetchResult.isOk] at hp
    · rw [ih _ (fun q hq => h q (List.mem_cons_of_mem _ hq))]
      simp [logStart, hf]
    · rw [ih _ (fun q hq => h q (List.mem_cons_of_mem _ hq))]
      simp [logStart, hf]

theorem endFold_diags (l : List Nat) (acc : PollOut PidInfo) :
    ((l.foldl logEnd acc).diags) = acc.diags := by
  induction l generalizing acc with
  | nil => rfl
  | cons p rest ih =>
    rw [List.foldl_cons, ih]
    rfl

theorem endFold_diag_irrel (l : List Nat) (s : PidInfo) (e : List Event)
    (d d2 : List Diag) :
    (l.foldl logEnd ⟨s, e, d⟩).state = (l.foldl logEnd ⟨s, e, d2⟩).state ∧
    (l.foldl logEnd ⟨s, e, d⟩).events = (l.foldl logEnd ⟨s, e, d2⟩).events := by
  induction l generalizing s e with
  | nil => exact ⟨rfl, rfl⟩
  | cons p rest ih =>
    rw [List.foldl_cons, List.foldl_cons]
    exact ih _ _

theorem endFold_mem_state (l : List Nat) (acc : PollOut PidInfo) (k : Nat) :
    k ∈ dkeys ((l.foldl logEnd acc).state) ↔ k ∈ dkeys acc.state ∧ k ∉ l := by
  induction l generalizing acc with
  | nil => simp
  | cons p rest ih =>
    rw [List.foldl_cons, ih]
    simp only [logEnd, mem_dkeys_derase, List.mem_cons]
    constructor
    · rintro ⟨⟨h1, h2⟩, h3⟩
      exact ⟨h1, by rintro (rfl | hc); exact h2 rfl; exact h3 hc⟩
    · rintro ⟨h1, h2⟩
      exact ⟨⟨h1, fun hc => h2 (Or.inl hc)⟩, fun hc => h2 (Or.inr hc)⟩

theorem endFold_events_mem (l : List Nat) (acc : PollOut PidInfo) (e : Event)
    (he : e ∈ (l.foldl logEnd acc).events) :
    e ∈ acc.events ∨ ∃ p nm, p ∈ l ∧ e = .procEnded p nm := by
  induction l generalizing acc with
  | nil => exact Or.inl he
  | cons p rest ih =>
    rw [List.foldl_cons] at he
    rcases ih _ he with h | ⟨q, nm, hq, rfl⟩
    · simp [logEnd] at h
      rcases h with h | rfl
      · exact Or.inl h
      · exact Or.inr ⟨p, _, List.mem_cons_self _ _, rfl⟩
    · exact Or.inr ⟨q, nm, List.mem_cons_of_mem _ hq, rfl⟩

theorem endFold_events_mono (l : List Nat) (acc : PollOut PidInfo) (e : Event)
    (he : e ∈ acc.events) : e ∈ (l.foldl logEnd acc).events := by
  induction l generalizing acc with
  | nil => exact he
  | cons p rest ih =>
    rw [List.foldl_cons]
    apply ih
    simp [logEnd]
    exact Or.inl he

theorem endFold_ended_name (l : List Nat) (acc : PollOut PidInfo) (x : Nat)
    (nm : Option String) (hnd : l.Nodup)
    (he : Event.procEnded x nm ∈ (l.foldl logEnd acc).events) :
    Event.procEnded x nm ∈ acc.events ∨ (x ∈ l ∧ nm = dget x acc.state) := by
  induction l generalizing acc with
  | nil => exact Or.inl he
  | cons p rest ih =>
    rw [List.foldl_cons] at he
    rcases ih _ (List.Nodup.of_cons hnd) he with h | ⟨hx, hnm⟩
    · simp [logEnd] at h
      rcases h with h | ⟨rfl, rfl⟩
      · exact Or.inl h
      · exact Or.inr ⟨List.mem_cons_self _ _, rfl⟩
    · have hxp : x ≠ p := by
        rintro rfl
        exact (List.nodup_cons.mp hnd).1 hx
      rw [show (logEnd acc p).state = derase acc.state p from rfl,
          dget_derase_ne hxp] at hnm
      exact Or.inr ⟨List.mem_cons_of_mem _ hx, hnm⟩


end ProcessFoldLemmas

section ConnFoldLemmas

theorem scanStep_mem_keys (a : ScanAcc) (c : Conn) (k : ConnKey) :
    k ∈ (scanStep a c).keys ↔ k ∈ a.keys ∨ k = connKey c := by
  show k ∈ (if connKey c ∈ a.keys then a.keys else a.keys ++ [connKey c]) ↔ _
  by_cases hc : connKey c ∈ a.keys
  · rw [if_pos hc]
    constructor
    · exact Or.inl
    · rintro (h | rfl)
      · exact h
      · exact hc
  · rw [if_neg hc]
    simp

theorem scanStep_mem_ci (a : ScanAcc) (c : Conn) (k : ConnKey) :
    k ∈ dkeys (scanStep a c).ci ↔ k ∈ dkeys a.ci ∨ k = connKey c := by
  show k ∈ dkeys (if (dget (connKey c) a.ci).isSome then a.ci
      else a.ci ++ [(connKey c, mkConnInfo c)]) ↔ _
  by_cases hc : (dget (connKey c) a.ci).isSome = true
  · rw [if_pos hc]
    have hm := dget_isSome_iff_mem.mp hc
    constructor
    · exact Or.inl
    · rintro (h | rfl)
      · exact h
      · exact hm
  · rw [if_neg hc, mem_dkeys_append]
    simp [dkeys]

theorem scanFold_mem_keys (conns : List Conn) (a : ScanAcc) (k : ConnKey) :
    k ∈ (conns.foldl scanStep a).keys ↔ k ∈ a.keys ∨ k ∈ conns.map connKey := by
  induction conns generalizing a with
  | nil => simp
  | cons c rest ih =>
    rw [List.foldl_cons, ih, scanStep_mem_keys]
    simp only [List.map_cons, List.mem_cons]
    tauto

theorem scanFold_mem_ci (conns : List Conn) (a : ScanAcc) (k : ConnKey) :
    k ∈ dkeys (conns.foldl scanStep a).ci ↔ k ∈ dkeys a.ci ∨ k ∈ conns.map connKey := by
  induction conns generalizing a with
  | nil => simp
  | cons c rest ih =>
    rw [List.foldl_cons, ih, scanStep_mem_ci]
    simp only [List.map_cons, List.mem_cons]
    tauto

theorem scanFold_dget_not_mem (conns : List Conn) (a : ScanAcc) (k : ConnKey)
    (h : k ∉ (conns.foldl scanStep a).keys) :
    dget k (conns.foldl scanStep a).ci = dget k a.ci := by
  induction conns generalizing a with
  | nil => rfl
  | cons c rest ih =>
    rw [List.foldl_cons] at h ⊢
    have hkc : k ≠ connKey c := by
      rintro rfl
      apply h
      rw [scanFold_mem_keys]
      exact Or.inl ((scanStep_mem_keys _ _ _).mpr (Or.inr rfl))
    rw [ih _ h]
    show dget k (if (dget (connKey c) a.ci).isSome then a.ci
        else a.ci ++ [(connKey c, mkConnInfo c)]) = dget k a.ci
    by_cases hc : (dget (connKey c) a.ci).isSome = true
    · rw [if_pos hc]
    · rw [if_neg hc]
      exact dget_append_single_ne (Ne.symm hkc)

theorem connStartFold_state (l : List ConnKey) (acc : PollOut ConnDict) :
    (l.foldl logConnStart acc).state = acc.state := by
  induction l generalizing acc with
  | nil => rfl
  | cons p rest ih =>
    rw [List.foldl_cons, ih]
    rfl

theorem connStartFold_diags (l : List ConnKey) (acc : PollOut ConnDict) :
    (l.foldl logConnStart acc).diags = acc.diags := by
  induction l generalizing acc with
  | nil => rfl
  | cons p rest ih =>
    rw [List.foldl_cons, ih]
    rfl

theorem connStartFold_events_mem (l : List ConnKey) (acc : PollOut ConnDict)
    (e : Event) (he : e ∈ (l.foldl logConnStart acc).events) :
    e ∈ acc.events ∨ ∃ i, e = Event.connStarted i := by
  induction l generalizing acc with
  | nil => exact Or.inl he
  | cons p rest ih =>
    rw [List.foldl_cons] at he
    rcases ih _ he with h | hi
    · simp [logConnStart] at h
      rcases h with h | rfl
      · exact Or.inl h
      · exact Or.inr ⟨_, rfl⟩
    · exact Or.inr hi

theorem connEndFold_diags (l : List ConnKey) (acc : PollOut ConnDict) :
    (l.foldl logConnEnd acc).diags = acc.diags := by
  induction l generalizing acc with
  | nil => rfl
  | cons p rest ih =>
    rw [List.foldl_cons, ih]
    rfl

theorem connEndFold_diag_irrel (l : List ConnKey) (s : ConnDict) (e : List Event)
    (d d2 : List Diag) :
    (l.foldl logConnEnd ⟨s, e, d⟩).state = (l.foldl logConnEnd ⟨s, e, d2⟩).state ∧
    (l.foldl logConnEnd ⟨s, e, d⟩).events = (l.foldl logConnEnd ⟨s, e, d2⟩).events := by
  induction l generalizing s e with
  | nil => exact ⟨rfl, rfl⟩
  | cons p rest ih =>
    rw [List.foldl_cons, List.foldl_cons]
    exact ih _ _

theorem connEndFold_mem_state (l : List ConnKey) (acc : PollOut ConnDict) (k : ConnKey) :
    k ∈ dkeys ((l.foldl logConnEnd acc).state) ↔ k ∈ dkeys acc.state ∧ k ∉ l := by
  induction l generalizing acc with
  | nil => simp
  | cons p rest ih =>
    rw [List.foldl_cons, ih]
    simp only [logConnEnd, mem_dkeys_derase, List.mem_cons]
    constructor
    · rintro ⟨⟨h1, h2⟩, h3⟩
      refine ⟨h1, ?_⟩
      rintro (rfl | hc)
      · exact h2 rfl
      · exact h3 hc
    · rintro ⟨h1, h2⟩
      exact ⟨⟨h1, fun hc => h2 (Or.inl hc)⟩, fun hc => h2 (Or.inr hc)⟩

theorem connEndFold_events_mem (l : List ConnKey) (acc : PollOut ConnDict)
    (e : Event) (he : e ∈ (l.foldl logConnEnd acc).events) :
    e ∈ acc.events ∨ ∃ i, e = Event.connEnded i := by
  induction l generalizing acc with
  | nil => exact Or.inl he
  | cons p rest ih =>
    rw [List.foldl_cons] at he
    rcases ih _ he with h | hi
    · simp [logConnEnd] at h
      rcases h with h | rfl
      · exact Or.inl h
      · exact Or.inr ⟨_, rfl⟩
    · exact Or.inr hi

theorem connEndFold_ended_info (l : List ConnKey) (acc : PollOut ConnDict)
    (info : ConnInfo) (hnd : l.Nodup)
    (he : Event.connEnded info ∈ (l.foldl logConnEnd acc).events) :
    Event.connEnded info ∈ acc.events ∨
      ∃ k, k ∈ l ∧ info = (dget k acc.state).getD emptyConnInfo := by
  induction l generalizing acc with
  | nil => exact Or.inl he
  | cons p rest ih =>
    rw [List.foldl_cons] at he
    rcases ih _ (List.Nodup.of_cons hnd) he with h | ⟨k, hk, hinfo⟩
    · simp [logConnEnd] at h
      rcases h with h | rfl
      · exact Or.inl h
      · exact Or.inr ⟨p, List.mem_cons_self _ _, rfl⟩
    · have hkp : k ≠ p := by
        rintro rfl
        exact (List.nodup_cons.mp hnd).1 hk
      rw [show (logConnEnd acc p).state = derase acc.state p from rfl,
          dget_derase_ne hkp] at hinfo
      exact Or.inr ⟨k, List.mem_cons_of_mem _ hk, hinfo⟩


end ConnFoldLemmas

section PollLemmas

theorem pollPids_mem_state (pi : PidInfo) (pidsRes : Option (List Nat))
    (fetch : Nat → FetchResult) (k : Nat) :
    k ∈ dkeys (pollPids pi pidsRes fetch).state ↔
      k ∈ currentOf pidsRes ∧ (k ∈ dkeys pi ∨ (fetch k).isOk = true) := by
  unfold pollPids
  simp only [endFold_mem_state, startFold_mem_state, List.mem_filter,
    List.mem_dedup, decide_eq_true_eq]
  tauto

theorem pollConnections_mem_state (ci : ConnDict) (connsRes : Option (List Conn))
    (k : ConnKey) :
    k ∈ dkeys (pollConnections ci connsRes).state ↔ k ∈ connKeysOf connsRes := by
  unfold pollConnections
  simp only [connEndFold_mem_state, connStartFold_state, scanFold_mem_ci,
    scanFold_mem_keys, List.mem_filter, List.mem_dedup, decide_eq_true_eq,
    connKeysOf, List.not_mem_nil, false_or]
  tauto

theorem pollPids_events_nil (st : PidInfo) (pidsRes : Option (List Nat))
    (fetch : Nat → FetchResult)
    (h1 : ∀ k ∈ dkeys st, k ∈ currentOf pidsRes)
    (h2 : ∀ k, k ∈ currentOf pidsRes → k ∉ dkeys st → (fetch k).isOk = false) :
    (pollPids st pidsRes fetch).events = [] := by
  unfold pollPids
  have hended : ((dkeys st).dedup.filter
      (fun p => decide (p ∉ currentOf pidsRes))) = [] := by
    rw [List.filter_eq_nil_iff]
    intro a ha
    simp only [decide_eq_true_eq, not_not]
    exact h1 a (List.mem_dedup.mp ha)
  dsimp only
  rw [hended]
  simp only [List.foldl_nil]
  apply startFold_events_of_none
  intro p hp
  rcases List.mem_filter.mp hp with ⟨hp1, hp2⟩
  exact h2 p hp1 (fun hc => by simp [List.mem_dedup.mpr hc] at hp2)

theorem pollPids_twice_events (pi : PidInfo) (pidsRes : Option (List Nat))
    (fetch : Nat → FetchResult) :
    (pollPids (pollPids pi pidsRes fetch).state pidsRes fetch).events = [] := by
  apply pollPids_events_nil
  · intro k hk
    exact ((pollPids_mem_state pi pidsRes fetch k).mp hk).1
  · intro k hkc hkn
    rcases hb : (fetch k).isOk with _ | _
    · rfl
    · exact absurd ((pollPids_mem_state pi pidsRes fetch k).mpr ⟨hkc, Or.inr hb⟩) hkn

theorem pollConnections_events_nil (st : ConnDict) (connsRes : Option (List Conn))
    (h1 : ∀ k ∈ dkeys st, k ∈ connKeysOf connsRes) :
    (pollConnections st connsRes).events = [] := by
  unfold pollConnections
  have hcreated : (((connsRes.getD []).foldl scanStep ⟨[], st⟩).keys.filter
      (fun k => decide (k ∉ (dkeys ((connsRes.getD []).foldl scanStep ⟨[], st⟩).ci).dedup))) = [] := by
    rw [List.filter_eq_nil_iff]
    intro a ha
    simp only [decide_eq_true_eq, not_not, List.mem_dedup]
    rcases (scanFold_mem_keys _ _ _).mp ha with h | h
    · cases h
    · exact (scanFold_mem_ci _ _ _).mpr (Or.inr h)
  have hended : (((dkeys ((connsRes.getD []).foldl scanStep ⟨[], st⟩).ci).dedup.filter
      (fun k => decide (k ∉ ((connsRes.getD []).foldl scanStep ⟨[], st⟩).keys)))) = [] := by
    rw [List.filter_eq_nil_iff]
    intro a ha
    simp only [decide_eq_true_eq, not_not]
    rcases (scanFold_mem_ci _ _ _).mp (List.mem_dedup.mp ha) with h | h
    · exact (scanFold_mem_keys _ _ _).mpr (Or.inr (h1 a h))
    · exact (scanFold_mem_keys _ _ _).mpr (Or.inr h)
  dsimp only
  rw [hcreated, hended]
  simp only [List.foldl_nil]

theorem pollConnections_twice_events (ci : ConnDict) (connsRes : Option (List Conn)) :
    (pollConnections (pollConnections ci connsRes).state connsRes).events = [] := by
  apply pollConnections_events_nil
  intro k hk
  exact (pollConnections_mem_state ci connsRes k).mp hk


end PollLemmas

theorem seedConnFold_mem (conns : List Conn) (d : ConnDict) (k : ConnKey)
    (h : k ∈ dkeys d ∨ ∃ c ∈ conns, connKey c = k) :
    k ∈ dkeys (conns.foldl (fun ci c => dset ci (connKey c) (mkConnInfo c)) d) := by
  induction conns generalizing d with
  | nil =>
    rcases h with h | ⟨c, hc, _⟩
    · exact h
    · cases hc
  | cons c0 rest ih =>
    rw [List.foldl_cons]
    apply ih
    rcases h with h | ⟨c, hc, rfl⟩
    · exact Or.inl (mem_dkeys_dset.mpr (Or.inl h))
    · rcases List.mem_cons.mp hc with rfl | hc2
      · exact Or.inl (mem_dkeys_dset.mpr (Or.inr rfl))
      · exact Or.inr ⟨c, hc2, rfl⟩

/-- C1: evaluation at the failing input.  With an empty WatcherState and a
snapshot holding one connection, that identity is in the snapshot and not
previously tracked, so the claim requires exactly one started event; the
poll emits zero started events while still inserting the identity. -/
theorem conn_new_key_emits_no_started_event :
    dget (connKey cEst) ([] : ConnDict) = none ∧
    connKey cEst ∈ connKeysOf (some [cEst]) ∧
    (pollConnections [] (some [cEst])).events.countP Event.isConnStarted = 0 ∧
    connKey cEst ∈ dkeys (pollConnections [] (some [cEst])).state := by
  decide

/-- C2: evaluation at the failing input.  A seeded connection whose status
changes from ESTABLISHED to CLOSE_WAIT yields a distinct identity; the poll
emits the one ended event for the old identity but zero started events for
the new one, although the claim requires exactly one of each. -/
theorem status_change_scenario_missing_started :
    connKey cEst ≠ connKey cCw ∧
    (pollConnections ciSeeded (some [cCw])).events = [.connEnded (mkConnInfo cEst)] ∧
    (pollConnections ciSeeded (some [cCw])).events.countP Event.isConnStarted = 0 := by
  decide

/-- C3: counterexample to the claim as stated.  A pid in the snapshot whose
detail fetch fails is not inserted, so the state after the poll does not
equal the snapshot. -/
theorem process_state_missing_fetched_pid :
    5 ∈ currentOf (some [5]) ∧
    5 ∉ dkeys (pollPids [] (some [5]) (fun _ => FetchResult.noSuchProcess)).state := by
  decide

/-- C3 amended: after a connection poll the state keys are exactly the
snapshot identities; after a process poll in which every newly seen pid
fetches successfully, the state keys are exactly the snapshot pids. -/
theorem state_matches_snapshot_amended :
    (∀ (ci : ConnDict) (connsRes : Option (List Conn)) (k : ConnKey),
       k ∈ dkeys (pollConnections ci connsRes).state ↔ k ∈ connKeysOf connsRes) ∧
    (∀ (pi : PidInfo) (ps : List Nat) (fetch : Nat → FetchResult),
       (∀ p ∈ ps, p ∉ dkeys pi → (fetch p).isOk = true) →
       ∀ p, p ∈ dkeys (pollPids pi (some ps) fetch).state ↔ p ∈ ps) := by
  constructor
  · exact pollConnections_mem_state
  · intro pi ps fetch hok p
    rw [pollPids_mem_state]
    constructor
    · rintro ⟨h1, _⟩
      simpa [currentOf, List.mem_dedup] using h1
    · intro hp
      refine ⟨by simpa [currentOf, List.mem_dedup] using hp, ?_⟩
      by_cases hmem : p ∈ dkeys pi
      · exact Or.inl hmem
      · exact Or.inr (hok p hp hmem)

/-- C3 amended, witness at concrete inputs. -/
theorem state_matches_snapshot_amended_witness :
    (connKey cEst ∈ dkeys (pollConnections [] (some [cEst])).state ↔
       connKey cEst ∈ connKeysOf (some [cEst])) ∧
    (7 ∈ dkeys (pollPids [] (some [7]) (fun _ => FetchResult.ok "bash" "t0")).state ↔
       7 ∈ [7]) :=
  ⟨state_matches_snapshot_amended.1 [] (some [cEst]) (connKey cEst),
   state_matches_snapshot_amended.2 [] [7] (fun _ => FetchResult.ok "bash" "t0")
     (fun _ _ _ => rfl) 7⟩

/-- C4: evaluation at the failing input.  When enumeration fails on poll N
every tracked connection is reported ended and the state empties, but on
the next successful poll the reappearing identity is stored silently:
zero started events are emitted although the claim requires them. -/
theorem enum_failure_recovery_missing_started :
    (pollConnections ciSeeded none).events = [.connEnded (mkConnInfo cEst)] ∧
    (pollConnections ciSeeded none).state = [] ∧
    (pollConnections (pollConnections ciSeeded none).state
        (some [cEst])).events.countP Event.isConnStarted = 0 ∧
    connKey cEst ∈ dkeys (pollConnections (pollConnections ciSeeded none).state
        (some [cEst])).state := by
  decide

/-- C5: constructing the monitor emits zero lifecycle events for every
initial snapshot, including non-empty ones, while populating the state
with the seeded entities. -/
theorem seeding_emits_no_events (pidsRes : Option (List Nat))
    (fetch : Nat → FetchResult) (connsRes : Option (List Conn)) :
    (monitorInit pidsRes fetch connsRes).2 = [] ∧
    (∀ conns c, connsRes = some conns → c ∈ conns →
       connKey c ∈ dkeys (monitorInit pidsRes fetch connsRes).1.connInfo) := by
  constructor
  · show (seedPids pidsRes fetch).2 ++ (seedConnections connsRes).2 = []
    rcases pidsRes with _ | ps
    · rfl
    · rfl
  · rintro conns c rfl hc
    show connKey c ∈ dkeys (seedConnections (some conns)).1
    exact seedConnFold_mem conns [] (connKey c) (Or.inr ⟨c, hc, rfl⟩)

/-- C5 witness at concrete non-empty snapshots. -/
theorem seeding_emits_no_events_witness :
    (monitorInit (some [7]) (fun _ => FetchResult.ok "bash" "t0") (some [cEst])).2 = [] ∧
    connKey cEst ∈ dkeys (monitorInit (some [7]) (fun _ => FetchResult.ok "bash" "t0")
      (some [cEst])).1.connInfo :=
  ⟨(seeding_emits_no_events (some [7]) (fun _ => FetchResult.ok "bash" "t0")
      (some [cEst])).1,
   (seeding_emits_no_events (some [7]) (fun _ => FetchResult.ok "bash" "t0")
      (some [cEst])).2 [cEst] cEst rfl (List.mem_cons_self _ _)⟩

/-- C6: an ended event always reports the detail cached in WatcherState
when the identity was recorded, never values read from the current
snapshot: the reported process name is the cached one, and the reported
connection metadata is some value stored in the pre-poll cache. -/
theorem ended_event_reports_cached_detail :
    (∀ (pi : PidInfo) (pidsRes : Option (List Nat)) (fetch : Nat → FetchResult)
       (x : Nat) (nm : Option String),
       Event.procEnded x nm ∈ (pollPids pi pidsRes fetch).events → nm = dget x pi) ∧
    (∀ (ci : ConnDict) (connsRes : Option (List Conn)) (info : ConnInfo),
       Event.connEnded info ∈ (pollConnections ci connsRes).events →
       ∃ k, dget k ci = some info) := by
  constructor
  · intro pi pidsRes fetch x nm he
    unfold pollPids at he
    dsimp only at he
    have hnd : ((dkeys pi).dedup.filter
        (fun p => decide (p ∉ currentOf pidsRes))).Nodup :=
      (List.nodup_dedup _).filter _
    rcases endFold_ended_name _ _ _ _ hnd he with h | ⟨hx, hnm⟩
    · rcases startFold_events_mem _ _ _ _ h with h0 | ⟨p, n, c, _, _, heq⟩
      · cases h0
      · exact Event.noConfusion heq
    · rcases List.mem_filter.mp hx with ⟨_, hx2⟩
      have hxcur : x ∉ currentOf pidsRes := by simpa using hx2
      have hxa : x ∉ (currentOf pidsRes).filter
          (fun p => decide (p ∉ (dkeys pi).dedup)) := by
        intro hcon
        exact hxcur (List.mem_filter.mp hcon).1
      rw [startFold_dget_not_mem _ _ _ _ hxa] at hnm
      exact hnm
  · intro ci connsRes info he
    unfold pollConnections at he
    dsimp only at he
    have hnd : ((dkeys ((connsRes.getD []).foldl scanStep ⟨[], ci⟩).ci).dedup.filter
        (fun k => decide (k ∉ ((connsRes.getD []).foldl scanStep ⟨[], ci⟩).keys))).Nodup :=
      (List.nodup_dedup _).filter _
    rcases connEndFold_ended_info _ _ _ hnd he with h | ⟨k, hk, hinfo⟩
    · rcases connStartFold_events_mem _ _ _ h with h0 | ⟨i, heq⟩
      · cases h0
      · exact Event.noConfusion heq
    · rcases List.mem_filter.mp hk with ⟨hk1, hk2⟩
      have hknotkeys : k ∉ ((connsRes.getD []).foldl scanStep ⟨[], ci⟩).keys := by
        simpa using hk2
      have hget : dget k ((connsRes.getD []).foldl scanStep ⟨[], ci⟩).ci = dget k ci :=
        scanFold_dget_not_mem _ _ _ hknotkeys
      rw [connStartFold_state, hget] at hinfo
      have hkm : k ∈ dkeys ((connsRes.getD []).foldl scanStep ⟨[], ci⟩).ci :=
        List.mem_dedup.mp hk1
      have hsome : (dget k ci).isSome = true := by
        rw [← hget]
        exact dget_isSome_iff_mem.mpr hkm
      rcases ho : dget k ci with _ | v
      · rw [ho] at hsome
        cases hsome
      · refine ⟨k, ?_⟩
        rw [ho] at hinfo ⊢
        simp only [Option.getD_some] at hinfo
        rw [hinfo]

/-- C6 witness at concrete inputs. -/
theorem ended_event_reports_cached_detail_witness :
    (some "sh" : Option String) = dget 3 [(3, "sh")] ∧
    ∃ k, dget k [(connKey cEst, mkConnInfo cEst)] = some (mkConnInfo cEst) :=
  ⟨ended_event_reports_cached_detail.1 [(3, "sh")] (some [])
     (fun _ => FetchResult.noSuchProcess) 3 (some "sh") (by decide),
   ended_event_reports_cached_detail.2 [(connKey cEst, mkConnInfo cEst)] (some [])
     (mkConnInfo cEst) (by decide)⟩

/-- C7: polling twice against an unchanged enumeration result emits zero
events on the second poll, for both watchers together. -/
theorem repoll_unchanged_snapshot_silent (st : Monitor) (pidsRes : Option (List Nat))
    (fetch : Nat → FetchResult) (connsRes : Option (List Conn)) :
    (pollOnce (pollOnce st pidsRes fetch connsRes).state pidsRes fetch connsRes).events
      = [] := by
  show (pollPids (pollPids st.pidInfo pidsRes fetch).state pidsRes fetch).events ++
      (pollConnections (pollConnections st.connInfo connsRes).state connsRes).events = []
  rw [pollPids_twice_events, pollConnections_twice_events]
  rfl

/-- C8: counterexample to the claim as stated.  The one diagnostic logged
when connection enumeration fails is debug-level, not error-level. -/
theorem conn_enum_failure_diag_not_error :
    (pollConnections [] none).diags.countP (fun d => decide (d.level = Level.error)) = 0 ∧
    (pollConnections [] none).diags = [⟨Level.debug, "Failed to list network connections"⟩] := by
  decide

/-- C8 amended: a failing pid enumeration logs exactly one error-level
diagnostic, a failing connection enumeration logs exactly one debug-level
diagnostic, and in both cases the poll otherwise behaves exactly as a poll
of an empty snapshot, so the loop continues. -/
theorem enum_failure_degrade_amended (pi : PidInfo) (fetch : Nat → FetchResult)
    (ci : ConnDict) :
    (pollPids pi none fetch).diags = [⟨Level.error, "Failed to list PIDs"⟩] ∧
    (pollPids pi none fetch).state = (pollPids pi (some []) fetch).state ∧
    (pollPids pi none fetch).events = (pollPids pi (some []) fetch).events ∧
    (pollConnections ci none).diags = [⟨Level.debug, "Failed to list network connections"⟩] ∧
    (pollConnections ci none).state = (pollConnections ci (some [])).state ∧
    (pollConnections ci none).events = (pollConnections ci (some [])).events := by
  have hp1 : pollPids pi none fetch =
      ((dkeys pi).dedup.filter (fun p => decide (p ∉ ([] : List Nat)))).foldl logEnd
        ⟨pi, [], [⟨Level.error, "Failed to list PIDs"⟩]⟩ := rfl
  have hp2 : pollPids pi (some []) fetch =
      ((dkeys pi).dedup.filter (fun p => decide (p ∉ ([] : List Nat)))).foldl logEnd
        ⟨pi, [], []⟩ := rfl
  have hc1 : pollConnections ci none =
      ((dkeys ci).dedup.filter (fun k => decide (k ∉ ([] : List ConnKey)))).foldl logConnEnd
        ⟨ci, [], [⟨Level.debug, "Failed to list network connections"⟩]⟩ := rfl
  have hc2 : pollConnections ci (some []) =
      ((dkeys ci).dedup.filter (fun k => decide (k ∉ ([] : List ConnKey)))).foldl logConnEnd
        ⟨ci, [], []⟩ := rfl
  refine ⟨?_, ?_, ?_, ?_, ?_, ?_⟩
  · rw [hp1, endFold_diags]
  · rw [hp1, hp2]
    exact (endFold_diag_irrel _ _ _ _ _).1
  · rw [hp1, hp2]
    exact (endFold_diag_irrel _ _ _ _ _).2
  · rw [hc1, connEndFold_diags]
  · rw [hc1, hc2]
    exact (connEndFold_diag_irrel _ _ _ _ _).1
  · rw [hc1, hc2]
    exact (connEndFold_diag_irrel _ _ _ _ _).2

/-- C9: when the detail fetch for a newly appeared pid fails, no event
mentioning that pid is emitted and the pid is not stored, so the next poll
classifies it as new again and emits the started event once the fetch
succeeds. -/
theorem failed_start_retried_next_poll (pi : PidInfo) (ps : List Nat)
    (fetch1 fetch2 : Nat → FetchResult) (x : Nat) (n c : String)
    (hx : x ∈ ps) (hnew : x ∉ dkeys pi)
    (hfail : (fetch1 x).isOk = false) (hok : fetch2 x = .ok n c) :
    (pollPids pi (some ps) fetch1).events.countP (mentionsPid x) = 0 ∧
    x ∉ dkeys (pollPids pi (some ps) fetch1).state ∧
    Event.procStarted x n c ∈
      (pollPids (pollPids pi (some ps) fetch1).state (some ps) fetch2).events := by
  have h2 : x ∉ dkeys (pollPids pi (some ps) fetch1).state := by
    rw [pollPids_mem_state]
    rintro ⟨hcur, hor | hor⟩
    · exact hnew hor
    · rw [hfail] at hor
      cases hor
  refine ⟨?_, h2, ?_⟩
  · rw [List.countP_eq_zero]
    intro e he
    unfold pollPids at he
    dsimp only at he
    rcases endFold_events_mem _ _ _ he with h | ⟨p, nm, hp, rfl⟩
    · rcases startFold_events_mem _ _ _ _ h with h0 | ⟨p, nn, cc, hpc, hfp, rfl⟩
      · cases h0
      · simp only [mentionsPid, beq_iff_eq]
        intro hpx
        subst hpx
        rw [hfp] at hfail
        simp [FetchResult.isOk] at hfail
    · rcases List.mem_filter.mp hp with ⟨_, hp2⟩
      simp only [mentionsPid, beq_iff_eq]
      intro hpx
      subst hpx
      have hnc : p ∉ currentOf (some ps) := by simpa using hp2
      exact hnc (List.mem_dedup.mpr hx)
  · have h2d : x ∉ (dkeys (pollPids pi (some ps) fetch1).state).dedup := by
      rw [List.mem_dedup]
      exact h2
    generalize (pollPids pi (some ps) fetch1).state = st1 at h2d ⊢
    unfold pollPids
    dsimp only
    apply endFold_events_mono
    exact startFold_started_mem fetch2 _ _ x n c
      (List.mem_filter.mpr ⟨List.mem_dedup.mpr hx, by simpa using h2d⟩) hok

/-- C9 witness at concrete inputs. -/
theorem failed_start_retried_next_poll_witness :
    (pollPids [] (some [7]) (fun _ => FetchResult.noSuchProcess)).events.countP
        (mentionsPid 7) = 0 ∧
    7 ∉ dkeys (pollPids [] (some [7]) (fun _ => FetchResult.noSuchProcess)).state ∧
    Event.procStarted 7 "bash" "t0" ∈
      (pollPids (pollPids [] (some [7]) (fun _ => FetchResult.noSuchProcess)).state
        (some [7]) (fun _ => FetchResult.ok "bash" "t0")).events :=
  failed_start_retried_next_poll [] [7] (fun _ => FetchResult.noSuchProcess)
    (fun _ => FetchResult.ok "bash" "t0") 7 "bash" "t0"
    (by decide) (by decide) (by decide) rfl

/-- C10: a raise escaping the connection-polling step is swallowed by the
poll cycle: the pid cache and the emitted events are exactly those of the
process half, whatever partial connection state the interrupted step left
behind, and the normal path is the same cycle with the successful
connection outcome. -/
theorem conn_poll_failure_isolated (st : Monitor) (pidsRes : Option (List Nat))
    (fetch : Nat → FetchResult) (d : ConnDict) (connsRes : Option (List Conn)) :
    (pollOnceWith st pidsRes fetch (.error d)).state.pidInfo =
      (pollPids st.pidInfo pidsRes fetch).state ∧
    (pollOnceWith st pidsRes fetch (.error d)).events =
      (pollPids st.pidInfo pidsRes fetch).events ∧
    (pollOnceWith st pidsRes fetch (.error d)).state.connInfo = d ∧
    pollOnce st pidsRes fetch connsRes =
      pollOnceWith st pidsRes fetch (.ok (pollConnections st.connInfo connsRes)) :=
  ⟨rfl, rfl, rfl, rfl⟩


end PyLog
